import Mathlib

/-!
Verification of the gamutRF waterfall engine (`gamutrf/waterfall.py`)
against its natural-language specification.

The numeric code is shallowly embedded over `ℚ` (exact arithmetic in place of
IEEE float64), with `NaN` modelled explicitly as `Option ℚ` where the source
relies on NaN propagation.  Python's `round` (and rounding of a pandas Series
via numpy) rounds half to even; `int(...)` and `.astype(int)` truncate toward
zero.  Both are modelled exactly below.
-/

namespace GamutRF

/-- Python / numpy `round`: round half to even (banker's rounding). -/
def roundHalfEven (q : ℚ) : ℤ :=
  if q - (⌊q⌋ : ℚ) < 1/2 then ⌊q⌋
  else if 1/2 < q - (⌊q⌋ : ℚ) then ⌊q⌋ + 1
  else if Even ⌊q⌋ then ⌊q⌋ else ⌊q⌋ + 1

/-- Python `int(...)` / numpy `.astype(int)`: truncation toward zero. -/
def pyInt (q : ℚ) : ℤ :=
  if 0 ≤ q then ⌊q⌋ else -⌊-q⌋

theorem roundHalfEven_intCast (n : ℤ) : roundHalfEven (n : ℚ) = n := by
  simp [roundHalfEven]

theorem roundHalfEven_le (q : ℚ) : (roundHalfEven q : ℚ) ≤ q + 1/2 := by
  have hfl : (⌊q⌋ : ℚ) ≤ q := Int.floor_le q
  have hfl2 : q < (⌊q⌋ : ℚ) + 1 := Int.lt_floor_add_one q
  unfold roundHalfEven
  split
  · linarith
  · split
    · push_cast
      linarith
    · split
      · linarith
      · push_cast
        linarith

theorem le_roundHalfEven (q : ℚ) : q - 1/2 ≤ (roundHalfEven q : ℚ) := by
  have hfl : (⌊q⌋ : ℚ) ≤ q := Int.floor_le q
  have hfl2 : q < (⌊q⌋ : ℚ) + 1 := Int.lt_floor_add_one q
  unfold roundHalfEven
  split
  · linarith
  · split
    · push_cast
      linarith
    · split
      · linarith
      · push_cast
        linarith

theorem roundHalfEven_mono {q r : ℚ} (h : q ≤ r) :
    roundHalfEven q ≤ roundHalfEven r := by
  by_contra hlt
  push_neg at hlt
  have h1 : roundHalfEven r + 1 ≤ roundHalfEven q := hlt
  have h2 : (roundHalfEven q : ℚ) ≤ q + 1/2 := roundHalfEven_le q
  have h3 : r - 1/2 ≤ (roundHalfEven r : ℚ) := le_roundHalfEven r
  have h4 : ((roundHalfEven r : ℤ) + 1 : ℚ) ≤ (roundHalfEven q : ℚ) := by
    exact_mod_cast h1
  push_cast at h4
  have hqr : r ≤ q := by linarith
  have : q = r := le_antisymm h hqr
  subst this
  omega

theorem roundHalfEven_add_two_mul (q : ℚ) (k : ℤ) :
    roundHalfEven (q + 2 * k) = roundHalfEven q + 2 * k := by
  have hfloor : ⌊q + 2 * (k : ℚ)⌋ = ⌊q⌋ + 2 * k := by
    rw [show (2 * (k : ℚ)) = ((2 * k : ℤ) : ℚ) by push_cast; ring,
      Int.floor_add_int]
  have h2k : Even (2 * k : ℤ) := even_two_mul k
  have heven : Even (⌊q⌋ + 2 * k) ↔ Even ⌊q⌋ := by
    simp [Int.even_add, h2k]
  have hfrac : q + 2 * (k : ℚ) - ((⌊q⌋ + 2 * k : ℤ) : ℚ) = q - (⌊q⌋ : ℚ) := by
    push_cast
    ring
  unfold roundHalfEven
  rw [hfloor, hfrac]
  by_cases h1 : q - (⌊q⌋ : ℚ) < 1/2
  · rw [if_pos h1, if_pos h1]
  · by_cases h2 : 1/2 < q - (⌊q⌋ : ℚ)
    · rw [if_neg h1, if_pos h2, if_neg h1, if_pos h2]
      ring
    · rw [if_neg h1, if_neg h2, if_neg h1, if_neg h2]
      by_cases h3 : Even ⌊q⌋
      · rw [if_pos (heven.mpr h3), if_pos h3]
      · rw [if_neg (fun hc => h3 (heven.mp hc)), if_neg h3]
        ring

theorem pyInt_of_nonneg {q : ℚ} (h : 0 ≤ q) : pyInt q = ⌊q⌋ := by
  simp [pyInt, h]

/-- The configuration fields of `WaterfallConfig` that the engine reads
(`min_freq`, `max_freq`, `freq_resolution`, `waterfall_height`,
`psd_db_resolution`), plus whether a save path is configured
(truthiness of `save_path` in the source). -/
structure WaterfallConfig where
  min_freq : ℚ
  max_freq : ℚ
  freq_resolution : ℚ
  waterfall_height : ℕ
  psd_db_resolution : ℕ
  savePath : Bool
deriving DecidableEq, Repr

/-- `numpy.linspace a b n`: `n` evenly spaced points from `a` to `b`,
endpoints included. -/
def linspace (a b : ℚ) (n : ℕ) : List ℚ :=
  if n ≤ 1 then List.replicate n a
  else (List.range n).map fun i : ℕ => a + (b - a) * (i : ℚ) / ((n : ℚ) - 1)

/-- `int((config.max_freq - config.min_freq) / config.freq_resolution + 1)`,
the number of frequency points used for the matrix columns (`init_fig`) and
the PSD frequency edge array (`reset_fig` / the redraw branch of
`waterfall`). -/
def num_bins (c : WaterfallConfig) : ℤ :=
  pyInt ((c.max_freq - c.min_freq) / c.freq_resolution + 1)

/-- `psd_x_edges`: `np.linspace(min_freq, max_freq, num_bins)`. -/
def freqEdges (c : WaterfallConfig) : List ℚ :=
  linspace c.min_freq c.max_freq (num_bins c).toNat

/-- `round((scan_df.freq - config.min_freq) / config.freq_resolution)`:
the frequency-to-bin mapping applied to each in-range sample. -/
def sampleIdx (c : WaterfallConfig) (f : ℚ) : ℤ :=
  roundHalfEven ((f - c.min_freq) / c.freq_resolution)

/-- `round(scan_df.freq / config.freq_resolution) * config.freq_resolution`:
the quantized frequency stored in the frequency matrix. -/
def quantizeFreq (c : WaterfallConfig) (f : ℚ) : ℚ :=
  (roundHalfEven (f / c.freq_resolution) : ℚ) * c.freq_resolution

theorem length_linspace (a b : ℚ) (n : ℕ) : (linspace a b n).length = n := by
  unfold linspace
  split
  · simp
  · rw [List.length_map, List.length_range]

/-- A float64 cell that may be NaN (`none`). -/
abbrev NF := Option ℚ

/-- A row of width `w` filled with NaN (`a[-1, :] = np.nan`). -/
def nanRow (w : ℕ) : List NF := List.replicate w none

/-- `np.roll(m, -1, axis=0)`: cyclic shift of the rows toward index 0. -/
def rollRows (m : List (List NF)) : List (List NF) := m.drop 1 ++ m.take 1

/-- `row[idx] = vals` for parallel index/value arrays (numpy fancy
assignment): each pair writes in order, so duplicate indices are
last-write-wins; any out-of-bounds index makes the whole statement fail
(numpy raises `IndexError`; in-range frequencies yield nonnegative indices,
so the negative-index wraparound of numpy is modelled as a failure too). -/
def writeEntries (row : List NF) (es : List (ℤ × ℚ)) : Option (List NF) :=
  es.foldl
    (fun acc e =>
      acc.bind fun r =>
        if 0 ≤ e.1 ∧ e.1.toNat < r.length then some (r.set e.1.toNat (some e.2))
        else none)
    (some row)

/-- Apply `f` to the last row (`a[-1]`); fails on an empty matrix. -/
def modifyLast (m : List (List NF)) (f : List NF → Option (List NF)) :
    Option (List (List NF)) :=
  match m.getLast? with
  | none => none
  | some r => (f r).map fun r' => m.set (m.length - 1) r'

/-- One matrix ingest:
`m = np.roll(m, -1, axis=0); m[-1, :] = np.nan; m[-1][idx] = vals`. -/
def ingestMat (m : List (List NF)) (es : List (ℤ × ℚ)) :
    Option (List (List NF)) :=
  modifyLast (rollRows m) fun r => writeEntries (nanRow r.length) es

/-- One row of the scan dataframe: a frequency/power sample. -/
structure ScanSample where
  freq : ℚ
  db : ℚ
deriving DecidableEq, Repr

/-- One item drained from the receiver: `(scan_configs, scan_df)`, where the
dataframe carries a single scan timestamp (`scan_df.ts.iloc[-1]`).  The scan
config is modelled as an opaque natural number key. -/
structure ScanBatch where
  ts : ℚ
  samples : List ScanSample
  cfg : ℕ
deriving DecidableEq, Repr

/-- The mutable fields of `WaterfallState` that the processing loop reads and
writes (plot artists and tick bookkeeping are omitted). -/
structure WaterfallState where
  freq_data : List (List NF)
  db_data : List (List NF)
  scan_times : List ℚ
  scan_config_history : List (ℚ × ℕ)
  previous_scan_config : Option ℕ
  counter : ℕ
deriving DecidableEq, Repr

/-- Python dict assignment `d[k] = v`: replace in place if the key exists,
else append (insertion order preserved). -/
def dictInsert (h : List (ℚ × ℕ)) (k : ℚ) (v : ℕ) : List (ℚ × ℕ) :=
  if h.any fun p => p.1 = k then
    h.map fun p => if p.1 = k then (k, v) else p
  else h ++ [(k, v)]

/-- Python dict `d.pop(k)`: remove the key, or raise `KeyError` (`none`) if
absent. -/
def dictPop (h : List (ℚ × ℕ)) (k : ℚ) : Option (List (ℚ × ℕ)) :=
  if h.any fun p => p.1 = k then some (h.filter fun p => ¬p.1 = k)
  else none

/-- `scan_df[(scan_df.freq >= config.min_freq) & (scan_df.freq <= config.max_freq)]`:
the in-range rows of the batch, order preserved. -/
def inRangeSamples (c : WaterfallConfig) (b : ScanBatch) : List ScanSample :=
  b.samples.filter fun s => c.min_freq ≤ s.freq ∧ s.freq ≤ c.max_freq

/-- The `(idx, value)` pairs written into the last row of `freq_data`. -/
def freqEntries (c : WaterfallConfig) (b : ScanBatch) : List (ℤ × ℚ) :=
  (inRangeSamples c b).map fun s => (sampleIdx c s.freq, quantizeFreq c s.freq)

/-- The `(idx, value)` pairs written into the last row of `db_data`. -/
def dbEntries (c : WaterfallConfig) (b : ScanBatch) : List (ℤ × ℚ) :=
  (inRangeSamples c b).map fun s => (sampleIdx c s.freq, s.db)

/-- The state-relevant body of the per-batch loop in `waterfall`
(`for scan_configs, scan_df in results:`): filter to the configured range
(skipping an all-out-of-range batch with a diagnostic, reported as the
returned flag); roll and refill `freq_data` and `db_data`; append the scan
time; on overflow pop the oldest time and, when persistence is enabled, pop
its config from the history; then record the batch's config in the history
and bump the counter.  `none` models a raised exception. -/
def processBatch (c : WaterfallConfig) (st : WaterfallState) (b : ScanBatch) :
    Option (WaterfallState × Bool) :=
  if (inRangeSamples c b).isEmpty then some (st, true)
  else
    (ingestMat st.freq_data (freqEntries c b)).bind fun fd =>
    (ingestMat st.db_data (dbEntries c b)).bind fun dd =>
    let scan_time := b.ts
    let times1 := st.scan_times ++ [scan_time]
    (if times1.length > c.waterfall_height then
        match times1 with
        | [] => none
        | remove_time :: rest =>
          if c.savePath then
            (dictPop st.scan_config_history remove_time).map fun h2 => (rest, h2)
          else some (rest, st.scan_config_history)
      else some (times1, st.scan_config_history)).bind
      fun th =>
        let hist3 :=
          if c.savePath then dictInsert th.2 scan_time b.cfg else th.2
        some
          ({ st with
              freq_data := fd
              db_data := dd
              scan_times := th.1
              scan_config_history := hist3
              counter := st.counter + 1 },
            false)

/-- Process a drained batch list strictly in arrival order. -/
def processAll (c : WaterfallConfig) (st : WaterfallState)
    (bs : List ScanBatch) : Option WaterfallState :=
  bs.foldlM (fun s b => (processBatch c s b).map Prod.fst) st

/-- `np.empty(X.shape); fill(np.nan)` in `init_fig`: `waterfall_height` rows
of `num_bins` NaN cells. -/
def initMatrix (c : WaterfallConfig) : List (List NF) :=
  List.replicate c.waterfall_height (nanRow (num_bins c).toNat)

/-- The freshly constructed `WaterfallState` after `init_fig`. -/
def initState (c : WaterfallConfig) : WaterfallState :=
  { freq_data := initMatrix c
    db_data := initMatrix c
    scan_times := []
    scan_config_history := []
    previous_scan_config := none
    counter := 0 }

/-- An IEEE float64 value as produced by dividing finite values:
finite, NaN, or a signed infinity. -/
inductive NpF where
  | nan : NpF
  | posinf : NpF
  | neginf : NpF
  | fin : ℚ → NpF
deriving DecidableEq, Repr

/-- IEEE division of two finite values: `0/0` is NaN, `x/0` for `x ≠ 0` is a
signed infinity, otherwise exact. -/
def npDiv (x m : ℚ) : NpF :=
  if m = 0 then
    if x = 0 then NpF.nan else if 0 < x then NpF.posinf else NpF.neginf
  else NpF.fin (x / m)

/-- `np.max` over all entries of a 2-D array (fails on an empty array). -/
def gridMax (g : List (List ℚ)) : Option ℚ := g.flatten.max?

/-- `data /= np.max(data)` applied to the smoothed histogram grid
(`waterfall`, redraw branch): every cell is divided by the global maximum,
with no divide-by-zero guard. -/
def normalizeGrid (g : List (List ℚ)) : Option (List (List NpF)) :=
  (gridMax g).map fun m => g.map fun r => r.map fun x => npDiv x m

/-- One candidate peak together with its slots in the `properties` arrays
returned by the peak finder (`peak_heights`, `prominences`, `left_ips`,
`right_ips`, `width_heights`).  `np.delete` removes the same position from
`peaks` and from every `properties` array, so the parallel arrays are
modelled as one record list. -/
structure PeakRec where
  peak : ℕ
  peak_heights : ℚ
  prominences : ℚ
  left_ips : ℚ
  right_ips : ℚ
  width_heights : ℚ
deriving DecidableEq, Repr

instance : Inhabited PeakRec := ⟨⟨0, 0, 0, 0, 0, 0⟩⟩

/-- `left_ips[i] > left_ips[j] and right_ips[i] < right_ips[j]`:
candidate `p` lies strictly inside candidate `q`. -/
def nestedIn (p q : PeakRec) : Bool :=
  decide (q.left_ips < p.left_ips) && decide (p.right_ips < q.right_ips)

/-- The inner `for j in range(len(peaks))` scan of `filter_peaks`: is the
candidate at position `i` strictly nested in some other live candidate? -/
def innerScan (l : List PeakRec) (i : ℕ) : Bool :=
  (List.range l.length).any fun j =>
    !decide (i = j) && nestedIn (l.getD i default) (l.getD j default)

/-- The outer `for i in range(len(peaks) - 1, -1, -1)` loop of
`filter_peaks`: positions are visited from the end of the original list;
deletions only ever happen at the position being visited, so position `i`
of the live list still holds the original element `i` when it is visited,
and it is deleted exactly when the inner scan finds a strictly containing
live candidate. -/
def filter_peaks_aux : ℕ → List PeakRec → List PeakRec
  | 0, l => l
  | i + 1, l =>
    filter_peaks_aux i
      (if i < l.length then if innerScan l i then l.eraseIdx i else l else l)

/-- `filter_peaks`: containment-based deduplication of candidate peaks. -/
def filter_peaks (l : List PeakRec) : List PeakRec :=
  filter_peaks_aux l.length l

/-- One CSV row appended by `save_detections`:
`timestamp, start_freq, end_freq, dB, type`. -/
structure DetectionRow where
  timestamp : ℚ
  start_freq : ℚ
  end_freq : ℚ
  dB : ℚ
  rowType : String
deriving DecidableEq, Repr

/-- `psd_x_edges[ips.astype(int)]`: truncate the fractional bin index to an
integer and index the frequency edge array (the indices produced by the
peak finder are nonnegative and in bounds; `getD _ 0` stands in for numpy
indexing there). -/
def ipsFreq (edges : List ℚ) (ips : ℚ) : ℚ :=
  edges.getD (pyInt ips).toNat 0

/-- Modelled from the spec: boundary translation "from fractional bin index
to frequency via linear interpolation against the frequency edge array";
used only to compare the specified behavior with `ipsFreq`. -/
def ipsFreqInterp (edges : List ℚ) (ips : ℚ) : ℚ :=
  edges.getD ⌊ips⌋.toNat 0 +
    (ips - (⌊ips⌋ : ℚ)) * (edges.getD (⌊ips⌋.toNat + 1) 0 - edges.getD ⌊ips⌋.toNat 0)

/-- The detection rows appended by `save_detections` for the surviving
peaks: one row per peak, boundaries via `psd_x_edges[... .astype(int)]`. -/
def detectionRows (scan_time : ℚ) (psd_x_edges : List ℚ)
    (peaks : List PeakRec) (detection_type : String) : List DetectionRow :=
  peaks.map fun p =>
    { timestamp := scan_time
      start_freq := ipsFreq psd_x_edges p.left_ips
      end_freq := ipsFreq psd_x_edges p.right_ips
      dB := p.peak_heights
      rowType := detection_type }

/-- A filesystem mutation performed by the persistence code.  Paths are
lists of components (`os.path.join`). -/
inductive FsEvent where
  | write (path : List String) : FsEvent
  | append (path : List String) : FsEvent
  | rename (src dst : List String) : FsEvent
deriving DecidableEq, Repr

/-- `os.path.dirname`, on a component list. -/
def dirOf (p : List String) : List String := p.dropLast

/-- Whether every event that materializes content at `p` is a rename from a
path in the same directory — the condition under which a concurrent reader
of `p` can never observe a partially written file. -/
def viaRenameOnly (tr : List FsEvent) (p : List String) : Bool :=
  tr.all fun e =>
    match e with
    | FsEvent.write q => !decide (q = p)
    | FsEvent.append q => !decide (q = p)
    | FsEvent.rename src q => !decide (q = p) || decide (dirOf src = dirOf q)

/-- The temporary path used by `safe_savefig`:
`os.path.join(dirname, "." + basename)`. -/
def tmpPath (d : List String) (basename : String) : List String :=
  d ++ ["." ++ basename]

/-- The filesystem trace of `safe_savefig(path)`: `plt.savefig(tmp_path)`
then `os.rename(tmp_path, path)`. -/
def safe_savefig_events (d : List String) (basename : String) : List FsEvent :=
  [FsEvent.write (tmpPath d basename), FsEvent.rename (tmpPath d basename) (d ++ [basename])]

/-- The filesystem trace of `save_detections` (directory creation elided):
when the scan config changed, `open(detection_config_save_path, "w")`;
when the CSV does not yet exist, `open(detection_save_path, "w")` for the
header; then `open(detection_save_path, "a")` for the detection rows.  All
three touch the final paths directly. -/
def save_detections_events (jsonPath csvPath : List String)
    (configChanged csvExists : Bool) : List FsEvent :=
  (if configChanged then [FsEvent.write jsonPath] else []) ++
    (if csvExists then [] else [FsEvent.write csvPath]) ++
    [FsEvent.append csvPath]

/-- The scan-config snapshot decision in `save_detections`:
`if state.previous_scan_config is None or state.previous_scan_config != scan_configs`
write the snapshot and remember the config; returns the updated
`previous_scan_config` and whether the snapshot file was written. -/
def configWriteStep (prev : Option ℕ) (scan_configs : ℕ) : Option ℕ × Bool :=
  if prev = none ∨ prev ≠ some scan_configs then (some scan_configs, true)
  else (prev, false)

/-- Number of snapshot writes over a sequence of per-cycle scan configs. -/
def configWrites (prev : Option ℕ) : List ℕ → ℕ
  | [] => 0
  | c :: cs =>
    (if (configWriteStep prev c).2 then 1 else 0) +
      configWrites (configWriteStep prev c).1 cs

/-! ## Claim theorems -/

/-- Claim C7: for every valid configuration (`max_freq > min_freq`,
`resolution > 0`), the number of frequency points computed for the matrix
columns and the PSD frequency edges is `⌊(max_freq - min_freq)/resolution⌋ + 1`;
in particular `min_freq = 100`, `max_freq = 110`, `resolution = 1/10` gives
101 bins. -/
theorem claim7_num_bins (c : WaterfallConfig)
    (hres : 0 < c.freq_resolution) (hlt : c.min_freq < c.max_freq) :
    num_bins c = ⌊(c.max_freq - c.min_freq) / c.freq_resolution⌋ + 1 ∧
    (freqEdges c).length = (num_bins c).toNat ∧
    num_bins ⟨100, 110, 1/10, 100, 90, true⟩ = 101 := by
  refine ⟨?_, ?_, by norm_num [num_bins, pyInt]⟩
  · have hq : (0 : ℚ) ≤ (c.max_freq - c.min_freq) / c.freq_resolution := by
      have : (0 : ℚ) ≤ c.max_freq - c.min_freq := by linarith
      positivity
    have h1 : (0 : ℚ) ≤ (c.max_freq - c.min_freq) / c.freq_resolution + 1 := by
      linarith
    rw [num_bins, pyInt_of_nonneg h1]
    have := Int.floor_add_int ((c.max_freq - c.min_freq) / c.freq_resolution) 1
    push_cast at this
    rw [this]
  · rw [freqEdges, length_linspace]

/-- Witness for claim C7 at the concrete configuration of the spec's
example. -/
theorem claim7_witness :
    (0 : ℚ) < 1/10 ∧ (100 : ℚ) < 110 ∧
    num_bins ⟨100, 110, 1/10, 100, 90, true⟩ = 101 :=
  ⟨by norm_num, by norm_num,
    (claim7_num_bins ⟨100, 110, 1/10, 100, 90, true⟩ (by norm_num)
      (by norm_num)).2.2⟩

/-- Claim C9: the scan-config snapshot is written exactly when the current
config differs from the last one written (or none was written yet), the
remembered config is updated exactly on a write, and the sequence
`[A, A, B, B, A]` produces exactly 3 writes. -/
theorem claim9_config_snapshot :
    (∀ (prev : Option ℕ) (cfg : ℕ),
        ((configWriteStep prev cfg).2 = true ↔ prev = none ∨ prev ≠ some cfg) ∧
        (configWriteStep prev cfg).1 =
          (if (configWriteStep prev cfg).2 then some cfg else prev)) ∧
    (∀ A B : ℕ, A ≠ B → configWrites none [A, A, B, B, A] = 3) := by
  constructor
  · intro prev cfg
    constructor
    · unfold configWriteStep
      split
      · simp_all
      · simp_all
    · unfold configWriteStep
      split
      · simp
      · simp
  · intro A B hAB
    have hBA : B ≠ A := hAB.symm
    simp [configWrites, configWriteStep, hAB, hBA]

/-- Witness for claim C9 at a concrete config sequence. -/
theorem claim9_witness :
    (((configWriteStep none 0).2 = true ↔
        (none : Option ℕ) = none ∨ (none : Option ℕ) ≠ some 0) ∧
      (configWriteStep none 0).1 =
        (if (configWriteStep none 0).2 then some 0 else none)) ∧
    configWrites none [0, 0, 1, 1, 0] = 3 :=
  ⟨claim9_config_snapshot.1 none 0, claim9_config_snapshot.2 0 1 (by decide)⟩

/-- Counterexample for claim C2: the PSD normalization `data /= np.max(data)`
is not guarded; on the all-zero 1×1 grid the result is the NaN grid, not the
zero grid the claim promises. -/
theorem claim2_counterexample :
    normalizeGrid [[0]] = some [[NpF.nan]] ∧
    normalizeGrid [[0]] ≠ some [[NpF.fin 0]] := by
  decide

/-- Claim C2 (amended): the division by the grid's global maximum is
unguarded; when the maximum is 0 (an all-zero nonnegative count grid, e.g.
from an all-NaN buffer) every cell becomes NaN via `0/0`, so the result is
the all-NaN grid of the same shape — the operation itself still does not
fail. -/
theorem claim2_amended (g : List (List ℚ))
    (hnn : ∀ r ∈ g, ∀ x ∈ r, 0 ≤ x)
    (hmax : gridMax g = some 0) :
    normalizeGrid g = some (g.map fun r => r.map fun _ => NpF.nan) := by
  have hle : ∀ b ∈ g.flatten, b ≤ (0 : ℚ) :=
    (List.max?_le_iff (fun a b c => max_le_iff) hmax).1 le_rfl
  rw [normalizeGrid, hmax, Option.map_some']
  congr 1
  apply List.map_congr_left
  intro r hr
  apply List.map_congr_left
  intro x hx
  have hx0 : x = 0 := by
    have h1 : x ≤ 0 := hle x (List.mem_flatten.mpr ⟨r, hr, hx⟩)
    have h2 : 0 ≤ x := hnn r hr x hx
    linarith
  subst hx0
  simp [npDiv]

/-- Witness for claim C2 (amended) at the concrete all-zero 2×2 grid. -/
theorem claim2_amended_witness :
    normalizeGrid [[0, 0], [0, 0]] =
      some ([[(0 : ℚ), 0], [0, 0]].map fun r => r.map fun _ => NpF.nan) :=
  claim2_amended [[0, 0], [0, 0]] (by decide) (by decide)

/-- Claim C8: samples outside `[min_freq, max_freq]` are discarded before bin
mapping (a sample at 99.9 under `min_freq = 100` reaches no bin), and a batch
whose samples are all out of range is a no-op that emits a diagnostic and
leaves the state unchanged rather than failing. -/
theorem claim8_out_of_range (c : WaterfallConfig) (st : WaterfallState)
    (b : ScanBatch) :
    (∀ s ∈ inRangeSamples c b, c.min_freq ≤ s.freq ∧ s.freq ≤ c.max_freq) ∧
    ((inRangeSamples c b).isEmpty = true → processBatch c st b = some (st, true)) ∧
    inRangeSamples ⟨100, 110, 1/10, 100, 90, true⟩ ⟨0, [⟨999/10, -50⟩], 0⟩ = [] := by
  refine ⟨?_, ?_, by norm_num [inRangeSamples, List.filter]⟩
  · intro s hs
    have := List.of_mem_filter hs
    exact of_decide_eq_true this
  · intro h
    rw [processBatch, if_pos h]

/-- Witness for claim C8: a concrete all-out-of-range batch is skipped with a
diagnostic and an unchanged state. -/
theorem claim8_witness :
    (inRangeSamples ⟨100, 110, 1/10, 100, 90, true⟩
        ⟨0, [⟨999/10, -50⟩], 0⟩).isEmpty = true ∧
    processBatch ⟨100, 110, 1/10, 100, 90, true⟩
        (initState ⟨100, 110, 1/10, 100, 90, true⟩) ⟨0, [⟨999/10, -50⟩], 0⟩ =
      some (initState ⟨100, 110, 1/10, 100, 90, true⟩, true) :=
  ⟨by norm_num [inRangeSamples, List.filter],
    (claim8_out_of_range ⟨100, 110, 1/10, 100, 90, true⟩
        (initState ⟨100, 110, 1/10, 100, 90, true⟩)
        ⟨0, [⟨999/10, -50⟩], 0⟩).2.1 (by norm_num [inRangeSamples, List.filter])⟩

theorem roundHalfEven_eq_of_lt_half {q : ℚ} {n : ℤ} (h1 : (n : ℚ) ≤ q)
    (h2 : q - (n : ℚ) < 1/2) : roundHalfEven q = n := by
  have hfl : ⌊q⌋ = n := Int.floor_eq_iff.mpr ⟨h1, by linarith⟩
  unfold roundHalfEven
  rw [hfl, if_pos h2]

theorem roundHalfEven_eq_half_even {q : ℚ} {n : ℤ} (h1 : q - (n : ℚ) = 1/2)
    (he : Even n) : roundHalfEven q = n := by
  have hfl : ⌊q⌋ = n := Int.floor_eq_iff.mpr ⟨by linarith, by linarith⟩
  unfold roundHalfEven
  rw [hfl, if_neg (by rw [h1]; norm_num), if_neg (by rw [h1]; norm_num), if_pos he]

theorem roundHalfEven_eq_half_odd {q : ℚ} {n : ℤ} (h1 : q - (n : ℚ) = 1/2)
    (ho : ¬Even n) : roundHalfEven q = n + 1 := by
  have hfl : ⌊q⌋ = n := Int.floor_eq_iff.mpr ⟨by linarith, by linarith⟩
  unfold roundHalfEven
  rw [hfl, if_neg (by rw [h1]; norm_num), if_neg (by rw [h1]; norm_num), if_neg ho]

/-- Counterexample for claim C10: under `min_freq = 1`, `resolution = 1` the
in-range frequency `f = 5/2` maps to bin 2, but its quantized frequency
`round(f/resolution)*resolution = 2` maps to bin 1 — half-to-even rounding
does not commute with the shift by `min_freq/resolution` when that shift is
an odd integer, so re-quantization is not idempotent. -/
theorem claim10_counterexample :
    (1 : ℚ) ≤ 5/2 ∧ (5/2 : ℚ) ≤ 5 ∧
    sampleIdx ⟨1, 5, 1, 100, 90, true⟩
        (quantizeFreq ⟨1, 5, 1, 100, 90, true⟩ (5/2)) ≠
      sampleIdx ⟨1, 5, 1, 100, 90, true⟩ (5/2) := by
  have h52 : roundHalfEven (5/2 : ℚ) = 2 :=
    roundHalfEven_eq_half_even (by norm_num) (by decide)
  have h32 : roundHalfEven (3/2 : ℚ) = 2 := by
    have h := roundHalfEven_eq_half_odd (q := 3/2) (n := 1) (by norm_num) (by decide)
    simpa using h
  refine ⟨by norm_num, by norm_num, ?_⟩
  have hquant : quantizeFreq ⟨1, 5, 1, 100, 90, true⟩ (5/2) = 2 := by
    rw [quantizeFreq]
    show (roundHalfEven ((5 : ℚ)/2 / 1) : ℚ) * 1 = 2
    rw [show ((5 : ℚ)/2 / 1) = 5/2 by norm_num, h52]
    norm_num
  have hA : sampleIdx ⟨1, 5, 1, 100, 90, true⟩ (5/2) = 2 := by
    rw [sampleIdx]
    show roundHalfEven (((5 : ℚ)/2 - 1) / 1) = 2
    rw [show (((5 : ℚ)/2 - 1) / 1) = 3/2 by norm_num, h32]
  have hB : sampleIdx ⟨1, 5, 1, 100, 90, true⟩
      (quantizeFreq ⟨1, 5, 1, 100, 90, true⟩ (5/2)) = 1 := by
    rw [hquant, sampleIdx]
    show roundHalfEven (((2 : ℚ) - 1) / 1) = 1
    rw [show (((2 : ℚ) - 1) / 1) = ((1 : ℤ) : ℚ) by norm_num, roundHalfEven_intCast]
  rw [hA, hB]
  decide

/-- Claim C10 (amended): the frequency-to-bin mapping
`idx(f) = round((f - min_freq)/resolution)` is monotonic non-decreasing over
`[min_freq, max_freq]`; idempotence under re-quantization
`idx(f) = idx(round(f/resolution)*resolution)` holds whenever
`min_freq/resolution` is an even integer (in particular for `min_freq = 0`),
but not in general (see the counterexample with `min_freq/resolution = 1`). -/
theorem claim10_amended (c : WaterfallConfig) (hres : 0 < c.freq_resolution) :
    (∀ f g : ℚ, c.min_freq ≤ f → f ≤ g → g ≤ c.max_freq →
        sampleIdx c f ≤ sampleIdx c g) ∧
    (∀ k : ℤ, c.min_freq = 2 * k * c.freq_resolution →
        ∀ f : ℚ, sampleIdx c (quantizeFreq c f) = sampleIdx c f) := by
  constructor
  · intro f g _ hfg _
    apply roundHalfEven_mono
    rw [div_eq_mul_inv, div_eq_mul_inv]
    exact mul_le_mul_of_nonneg_right (by linarith)
      (inv_nonneg.mpr hres.le)
  · intro k hmin f
    have hr : c.freq_resolution ≠ 0 := ne_of_gt hres
    have h1 : (f - c.min_freq) / c.freq_resolution
        = f / c.freq_resolution + 2 * ((-k : ℤ) : ℚ) := by
      rw [hmin]
      field_simp
      ring
    have h2 : (quantizeFreq c f - c.min_freq) / c.freq_resolution
        = ((roundHalfEven (f / c.freq_resolution) + 2 * (-k) : ℤ) : ℚ) := by
      rw [quantizeFreq, hmin]
      push_cast
      field_simp
      ring
    rw [sampleIdx, sampleIdx, h1, h2, roundHalfEven_add_two_mul,
      roundHalfEven_intCast]

/-- Witness for claim C10 (amended) at `min_freq = 0`, `resolution = 1`. -/
theorem claim10_witness :
    sampleIdx ⟨0, 10, 1, 100, 90, true⟩
        (quantizeFreq ⟨0, 10, 1, 100, 90, true⟩ (1/2)) =
      sampleIdx ⟨0, 10, 1, 100, 90, true⟩ (1/2) :=
  (claim10_amended ⟨0, 10, 1, 100, 90, true⟩ (by norm_num)).2 0 (by norm_num)
    (1/2)

theorem getD_eq_get {α : Type} (l : List α) (d : α) {n : ℕ} (h : n < l.length) :
    l.getD n d = l.get ⟨n, h⟩ := by
  simp [List.getD_eq_getElem?_getD, List.getElem?_eq_getElem h]

/-- Counterexample for claim C3: with edge array `[0, 1, 2, 3]` and a peak
whose left boundary is the fractional bin index `1/2`, the persisted
`start_freq` is `edges[int(1/2)] = edges[0] = 0`, while linear interpolation
against the same edge array gives `1/2`. -/
theorem claim3_counterexample :
    (detectionRows 0 [0, 1, 2, 3] [⟨1, -42, 1, 1/2, 2, 0⟩] "wideband").map
        DetectionRow.start_freq = [0] ∧
    ipsFreqInterp [0, 1, 2, 3] (1/2) = 1/2 ∧ ((0 : ℚ) ≠ 1/2) := by
  have hfl : ⌊(1/2 : ℚ)⌋ = 0 := Int.floor_eq_iff.mpr ⟨by norm_num, by norm_num⟩
  refine ⟨?_, ?_, by norm_num⟩
  · have hpy : (pyInt (2⁻¹ : ℚ)).toNat = 0 := by
      rw [pyInt_of_nonneg (by norm_num), show ((2 : ℚ))⁻¹ = 1/2 by norm_num, hfl]
      rfl
    simp [detectionRows, ipsFreq, hpy]
  · rw [ipsFreqInterp, hfl]
    norm_num

/-- Claim C3 (amended): every persisted detection boundary is obtained by
truncating the peak's fractional bin index to an integer and indexing the
frequency edge array (`psd_x_edges[ips.astype(int)]`); for a strictly
increasing edge array this agrees with linear interpolation against the same
edges exactly when the fractional index is an integer, and differs otherwise. -/
theorem claim3_amended (scan_time : ℚ) (edges : List ℚ)
    (peaks : List PeakRec) (dt : String) :
    (∀ r ∈ detectionRows scan_time edges peaks dt, ∃ p ∈ peaks,
        r.start_freq = ipsFreq edges p.left_ips ∧
        r.end_freq = ipsFreq edges p.right_ips) ∧
    (∀ ips : ℚ, 0 ≤ ips → List.Chain' (· < ·) edges →
        ⌊ips⌋.toNat + 1 < edges.length →
        (ipsFreq edges ips = ipsFreqInterp edges ips ↔ ips = (⌊ips⌋ : ℚ))) := by
  constructor
  · intro r hr
    rw [detectionRows, List.mem_map] at hr
    obtain ⟨p, hp, hrp⟩ := hr
    exact ⟨p, hp, by rw [← hrp], by rw [← hrp]⟩
  · intro ips hips hchain hlen
    have hi : ⌊ips⌋.toNat < edges.length := Nat.lt_of_succ_lt hlen
    have hstep : edges.get ⟨⌊ips⌋.toNat, hi⟩ <
        edges.get ⟨⌊ips⌋.toNat + 1, hlen⟩ := by
      have h := List.chain'_iff_get.mp hchain ⌊ips⌋.toNat (by omega)
      exact h
    have hcode : ipsFreq edges ips = edges.get ⟨⌊ips⌋.toNat, hi⟩ := by
      rw [ipsFreq, pyInt_of_nonneg hips, getD_eq_get edges 0 hi]
    have hinterp : ipsFreqInterp edges ips =
        edges.get ⟨⌊ips⌋.toNat, hi⟩ +
          (ips - (⌊ips⌋ : ℚ)) *
            (edges.get ⟨⌊ips⌋.toNat + 1, hlen⟩ - edges.get ⟨⌊ips⌋.toNat, hi⟩) := by
      rw [ipsFreqInterp, getD_eq_get edges 0 hi, getD_eq_get edges 0 hlen]
    rw [hcode, hinterp]
    constructor
    · intro h
      have hz : (ips - (⌊ips⌋ : ℚ)) *
          (edges.get ⟨⌊ips⌋.toNat + 1, hlen⟩ - edges.get ⟨⌊ips⌋.toNat, hi⟩) = 0 := by
        linarith
      rcases mul_eq_zero.mp hz with h0 | h0
      · linarith
      · linarith
    · intro h
      have hz : ips - (⌊ips⌋ : ℚ) = 0 := by
        rw [h]
        simp [Int.floor_intCast]
      rw [hz]
      ring

/-- Witness for claim C3 (amended): at integral fractional index 1 the
persisted boundary coincides with the interpolated boundary. -/
theorem claim3_witness :
    (∀ r ∈ detectionRows 0 [0, 1, 2, 3] [⟨1, -42, 1, 1, 2, 0⟩] "wideband",
        ∃ p ∈ [(⟨1, -42, 1, 1, 2, 0⟩ : PeakRec)],
          r.start_freq = ipsFreq [0, 1, 2, 3] p.left_ips ∧
          r.end_freq = ipsFreq [0, 1, 2, 3] p.right_ips) ∧
    (ipsFreq [0, 1, 2, 3] (1 : ℚ) = ipsFreqInterp [0, 1, 2, 3] (1 : ℚ) ↔
      (1 : ℚ) = ((⌊(1 : ℚ)⌋ : ℤ) : ℚ)) :=
  ⟨(claim3_amended 0 [0, 1, 2, 3] [⟨1, -42, 1, 1, 2, 0⟩] "wideband").1,
    (claim3_amended 0 [0, 1, 2, 3] [⟨1, -42, 1, 1, 2, 0⟩] "wideband").2 1
      (by norm_num) (by norm_num [List.chain'_cons]) (by norm_num [Int.floor_one])⟩

/-- Counterexample for claim C1: on a concrete detection cycle with a changed
scan config and a fresh CSV, the trace of `save_detections` touches both the
scan-config snapshot path and the detection CSV path with direct writes, so
neither persistence write is atomic with respect to readers. -/
theorem claim1_counterexample :
    viaRenameOnly
        (save_detections_events
          ["save", "detections", "detections_scan_config_1.json"]
          ["save", "detections", "detections_1.csv"] true false)
        ["save", "detections", "detections_scan_config_1.json"] = false ∧
    viaRenameOnly
        (save_detections_events
          ["save", "detections", "detections_scan_config_1.json"]
          ["save", "detections", "detections_1.csv"] true false)
        ["save", "detections", "detections_1.csv"] = false := by
  constructor
  · rfl
  · rfl

/-- Claim C1 (amended): only the waterfall image write (`safe_savefig`) is
atomic — it writes to a dot-prefixed temporary name in the same directory and
renames it into place; the per-peak detection records are appended directly
to the final CSV path, and the scan-config snapshot (on a config change) is
written directly to its final path, with no temporary-file-and-rename step. -/
theorem claim1_amended :
    (∀ (d : List String) (b : String),
        viaRenameOnly (safe_savefig_events d b) (d ++ [b]) = true ∧
        dirOf (tmpPath d b) = dirOf (d ++ [b])) ∧
    (∀ (jsonPath csvPath : List String) (configChanged csvExists : Bool),
        FsEvent.append csvPath ∈
          save_detections_events jsonPath csvPath configChanged csvExists ∧
        (configChanged = true →
          FsEvent.write jsonPath ∈
            save_detections_events jsonPath csvPath configChanged csvExists)) := by
  constructor
  · intro d b
    have hne : ¬("." ++ b = b) := by
      intro h3
      have h4 := congrArg String.length h3
      rw [String.length_append] at h4
      have h5 : (".").length = 1 := rfl
      omega
    constructor
    · simp [viaRenameOnly, safe_savefig_events, hne, tmpPath, dirOf,
        List.dropLast_concat]
    · rw [tmpPath, dirOf, dirOf, List.dropLast_concat, List.dropLast_concat]
  · intro jsonPath csvPath configChanged csvExists
    constructor
    · simp [save_detections_events]
    · intro hcc
      subst hcc
      simp [save_detections_events]

/-- Witness for claim C1 (amended) at concrete paths. -/
theorem claim1_witness :
    viaRenameOnly (safe_savefig_events ["save", "waterfall"] "waterfall.png")
        (["save", "waterfall"] ++ ["waterfall.png"]) = true ∧
    FsEvent.write ["cfg.json"] ∈
      save_detections_events ["cfg.json"] ["d.csv"] true false :=
  ⟨(claim1_amended.1 ["save", "waterfall"] "waterfall.png").1,
    (claim1_amended.2 ["cfg.json"] ["d.csv"] true false).2 rfl⟩

theorem getD_eraseIdx_of_lt {α : Type} [Inhabited α] :
    ∀ (l : List α) (i j : ℕ), j < i →
      (l.eraseIdx i).getD j default = l.getD j default
  | [], _, _, _ => rfl
  | _ :: _, 0, j, h => absurd h (Nat.not_lt_zero j)
  | _ :: _, _ + 1, 0, _ => rfl
  | _ :: t, i + 1, j + 1, h =>
      getD_eraseIdx_of_lt t i j (Nat.lt_of_succ_lt_succ h)

theorem getD_eraseIdx_of_ge {α : Type} [Inhabited α] :
    ∀ (l : List α) (i j : ℕ), i ≤ j →
      (l.eraseIdx i).getD j default = l.getD (j + 1) default
  | [], _, _, _ => rfl
  | _ :: _, 0, _, _ => rfl
  | _ :: _, _ + 1, 0, h => absurd h (by omega)
  | _ :: t, i + 1, j + 1, h =>
      getD_eraseIdx_of_ge t i j (Nat.le_of_succ_le_succ h)

theorem nestedIn_self (p : PeakRec) : nestedIn p p = false := by
  simp [nestedIn]

theorem getD_mem {α : Type} [Inhabited α] (l : List α) {n : ℕ}
    (h : n < l.length) : l.getD n default ∈ l := by
  rw [getD_eq_get l default h]
  exact l.get_mem n h

/-- No candidate at position `≥ k` of `l` is strictly nested in any
candidate of `l`: the invariant maintained by the outer loop of
`filter_peaks` over the already-visited suffix. -/
def NoNestFrom (k : ℕ) (l : List PeakRec) : Prop :=
  ∀ a b : ℕ, k ≤ a → a < l.length → b < l.length →
    nestedIn (l.getD a default) (l.getD b default) = false

theorem noNestFrom_step (l : List PeakRec) (k : ℕ) (h : NoNestFrom (k + 1) l) :
    NoNestFrom k
      (if k < l.length then if innerScan l k then l.eraseIdx k else l else l) := by
  by_cases hk : k < l.length
  · rw [if_pos hk]
    by_cases hscan : innerScan l k
    · rw [if_pos hscan]
      intro a b hka ha hb
      have hlen : (l.eraseIdx k).length + 1 = l.length :=
        List.length_eraseIdx_add_one hk
      rw [getD_eraseIdx_of_ge l k a hka]
      by_cases hbk : b < k
      · rw [getD_eraseIdx_of_lt l k b hbk]
        exact h (a + 1) b (by omega) (by omega) (by omega)
      · rw [getD_eraseIdx_of_ge l k b (by omega)]
        exact h (a + 1) (b + 1) (by omega) (by omega) (by omega)
    · rw [if_neg hscan]
      have hscanF : innerScan l k = false := by
        cases hx : innerScan l k
        · rfl
        · exact absurd hx hscan
      have hj : ∀ j, j < l.length → j ≠ k →
          nestedIn (l.getD k default) (l.getD j default) = false := by
        intro j hjl hjk
        cases hx : nestedIn (l.getD k default) (l.getD j default)
        · rfl
        · exfalso
          apply hscan
          rw [innerScan, List.any_eq_true]
          refine ⟨j, List.mem_range.mpr hjl, ?_⟩
          have hkj : ¬(k = j) := fun hc => hjk hc.symm
          rw [decide_eq_false hkj, hx]
          rfl
      intro a b hka ha hb
      by_cases hak : a = k
      · subst hak
        by_cases hba : b = a
        · subst hba
          exact nestedIn_self _
        · exact hj b hb hba
      · exact h a b (by omega) ha hb
  · rw [if_neg hk]
    intro a b hka ha hb
    exact h a b (by omega) ha hb

theorem noNestFrom_aux : ∀ (k : ℕ) (l : List PeakRec), NoNestFrom k l →
    NoNestFrom 0 (filter_peaks_aux k l)
  | 0, _, h => h
  | k + 1, l, h => noNestFrom_aux k _ (noNestFrom_step l k h)

theorem filter_peaks_aux_id : ∀ (k : ℕ) (l : List PeakRec),
    (∀ p ∈ l, ∀ q ∈ l, nestedIn p q = false) → filter_peaks_aux k l = l := by
  intro k
  induction k with
  | zero =>
    intro l _
    rfl
  | succ k ih =>
    intro l h
    have hscan : ∀ m, m < l.length → innerScan l m = false := by
      intro m hm
      rw [innerScan, List.any_eq_false]
      intro j hj
      rw [List.mem_range] at hj
      by_cases hmj : m = j
      · simp [hmj]
      · intro hcontra
        rw [decide_eq_false hmj, Bool.not_false, Bool.true_and] at hcontra
        rw [h _ (getD_mem l hm) _ (getD_mem l hj)] at hcontra
        exact Bool.false_ne_true hcontra
    show filter_peaks_aux k
        (if k < l.length then if innerScan l k then l.eraseIdx k else l else l) = l
    by_cases hk : k < l.length
    · rw [if_pos hk, hscan k hk]
      simp only [Bool.false_eq_true, if_false]
      exact ih l h
    · rw [if_neg hk]
      exact ih l h

/-- Claim C4: the containment filter never returns two candidates where one's
boundaries are strictly inside another's (no surviving peak is strictly
nested in another surviving peak); a candidate set with no strict nesting —
in particular one whose members have pairwise identical boundaries — is
returned unchanged, since identical boundaries never count as nested. -/
theorem claim4_no_nested_peaks (l : List PeakRec) :
    (∀ a b : ℕ, a < (filter_peaks l).length → b < (filter_peaks l).length →
        nestedIn ((filter_peaks l).getD a default)
          ((filter_peaks l).getD b default) = false) ∧
    ((∀ p ∈ l, ∀ q ∈ l, nestedIn p q = false) → filter_peaks l = l) ∧
    (∀ p q : PeakRec, p.left_ips = q.left_ips → p.right_ips = q.right_ips →
        nestedIn p q = false) := by
  refine ⟨?_, ?_, ?_⟩
  · have h0 : NoNestFrom l.length l := by
      intro a b hka ha _
      omega
    have hmain := noNestFrom_aux l.length l h0
    intro a b ha hb
    exact hmain a b (Nat.zero_le a) ha hb
  · intro h
    exact filter_peaks_aux_id l.length l h
  · intro p q hl hr
    rw [nestedIn, hl, hr]
    simp

/-- Witness for claim C4: two candidates with identical boundaries are both
kept. -/
theorem claim4_witness :
    filter_peaks [⟨1, -40, 1, 2, 8, 0⟩, ⟨2, -41, 1, 2, 8, 0⟩] =
      [⟨1, -40, 1, 2, 8, 0⟩, ⟨2, -41, 1, 2, 8, 0⟩] :=
  (claim4_no_nested_peaks _).2.1 (by decide)

theorem set_concat_last {α : Type} : ∀ (t : List α) (a r : α),
    (t ++ [a]).set t.length r = t ++ [r]
  | [], _, _ => rfl
  | x :: t, a, r => by
    show x :: ((t ++ [a]).set t.length r) = x :: (t ++ [r])
    rw [set_concat_last t a r]

theorem rollRows_cons (a : List NF) (t : List (List NF)) :
    rollRows (a :: t) = t ++ [a] := by
  simp [rollRows]

/-- On a nonempty matrix whose rows all have width `w`, one ingest evicts the
oldest row (index 0), shifts the rest toward index 0, and appends a fresh row
built by writing the entries into an all-NaN row of width `w`. -/
theorem ingestMat_eq {m : List (List NF)} (hm : m ≠ []) {w : ℕ}
    (hw : ∀ row ∈ m, row.length = w) (es : List (ℤ × ℚ)) :
    ingestMat m es = (writeEntries (nanRow w) es).map fun r => m.drop 1 ++ [r] := by
  obtain ⟨a, t, rfl⟩ : ∃ a t, m = a :: t := by
    cases m with
    | nil => exact absurd rfl hm
    | cons a t => exact ⟨a, t, rfl⟩
  have ha : a.length = w := hw a (List.mem_cons_self a t)
  have hlen : (t ++ [a]).length - 1 = t.length := by
    simp
  rw [ingestMat, rollRows_cons, modifyLast, List.getLast?_concat]
  dsimp only
  rw [ha]
  simp only [hlen]
  cases hwr : writeEntries (nanRow w) es with
  | none => rfl
  | some r =>
    show some ((t ++ [a]).set t.length r) = some ((a :: t).drop 1 ++ [r])
    rw [set_concat_last]
    rfl

theorem length_ingestMat {m m' : List (List NF)} {es : List (ℤ × ℚ)}
    (h : ingestMat m es = some m') : m'.length = m.length := by
  rw [ingestMat, modifyLast] at h
  cases hg : (rollRows m).getLast? with
  | none =>
    rw [hg] at h
    exact absurd h (by simp)
  | some r =>
    rw [hg] at h
    rw [Option.map_eq_some'] at h
    obtain ⟨r', _, hset⟩ := h
    rw [← hset, List.length_set, rollRows]
    simp
    omega

/-- Inversion of `processBatch`: a skipped batch returns the state unchanged
with the diagnostic flag; a processed batch ingests both matrices, advances
the scan-time window and history, and bumps the counter. -/
theorem processBatch_char {c : WaterfallConfig} {st : WaterfallState}
    {b : ScanBatch} {st' : WaterfallState} {flag : Bool}
    (h : processBatch c st b = some (st', flag)) :
    (flag = true → st' = st ∧ (inRangeSamples c b).isEmpty = true) ∧
    (flag = false → (inRangeSamples c b).isEmpty = false ∧
      ∃ fd dd th,
        ingestMat st.freq_data (freqEntries c b) = some fd ∧
        ingestMat st.db_data (dbEntries c b) = some dd ∧
        (if (st.scan_times ++ [b.ts]).length > c.waterfall_height then
            match st.scan_times ++ [b.ts] with
            | [] => none
            | remove_time :: rest =>
              if c.savePath then
                (dictPop st.scan_config_history remove_time).map
                  fun h2 => (rest, h2)
              else some (rest, st.scan_config_history)
          else some (st.scan_times ++ [b.ts], st.scan_config_history)) =
          some th ∧
        st' = { st with
                freq_data := fd
                db_data := dd
                scan_times := th.1
                scan_config_history :=
                  if c.savePath then dictInsert th.2 b.ts b.cfg else th.2
                counter := st.counter + 1 }) := by
  unfold processBatch at h
  by_cases he : (inRangeSamples c b).isEmpty
  · rw [if_pos he] at h
    simp only [Option.some.injEq, Prod.mk.injEq] at h
    obtain ⟨hst, hfl⟩ := h
    constructor
    · intro _
      exact ⟨hst.symm, he⟩
    · intro hf
      rw [hf] at hfl
      exact absurd hfl.symm Bool.false_ne_true
  · rw [if_neg he] at h
    have heF : (inRangeSamples c b).isEmpty = false := eq_false_of_ne_true he
    simp only [Option.bind_eq_some, Option.some.injEq, Prod.mk.injEq] at h
    obtain ⟨fd, hfd, dd, hdd, th, hth, hfin, hflag⟩ := h
    constructor
    · intro hf
      rw [hf] at hflag
      exact absurd hflag Bool.false_ne_true
    · intro _
      exact ⟨heF, fd, dd, th, hfd, hdd, hth, hfin.symm⟩

theorem processAll_nil (c : WaterfallConfig) (st : WaterfallState) :
    processAll c st [] = some st := rfl

theorem processAll_cons (c : WaterfallConfig) (st : WaterfallState)
    (b : ScanBatch) (bs : List ScanBatch) :
    processAll c st (b :: bs) =
      ((processBatch c st b).map Prod.fst).bind fun s => processAll c s bs := by
  rfl

theorem processBatch_length {c : WaterfallConfig} {st : WaterfallState}
    {b : ScanBatch} {st' : WaterfallState} {flag : Bool}
    (h : processBatch c st b = some (st', flag)) :
    st'.db_data.length = st.db_data.length ∧
    st'.freq_data.length = st.freq_data.length := by
  have hc := processBatch_char h
  cases flag with
  | true =>
    obtain ⟨hst, _⟩ := hc.1 rfl
    rw [hst]
    exact ⟨rfl, rfl⟩
  | false =>
    obtain ⟨_, fd, dd, th, hfd, hdd, _, hst⟩ := hc.2 rfl
    rw [hst]
    exact ⟨length_ingestMat hdd, length_ingestMat hfd⟩

theorem processAll_length (c : WaterfallConfig) :
    ∀ (bs : List ScanBatch) (st st' : WaterfallState),
      processAll c st bs = some st' →
      st'.db_data.length = st.db_data.length ∧
      st'.freq_data.length = st.freq_data.length := by
  intro bs
  induction bs with
  | nil =>
    intro st st' h
    rw [processAll_nil] at h
    obtain rfl := Option.some.inj h
    exact ⟨rfl, rfl⟩
  | cons b bs ih =>
    intro st st' h
    rw [processAll_cons] at h
    cases hpb : processBatch c st b with
    | none =>
      rw [hpb] at h
      exact absurd h (by simp)
    | some p =>
      obtain ⟨s1, fl⟩ := p
      rw [hpb] at h
      simp only [Option.map_some', Option.some_bind] at h
      have hrec := ih s1 st' h
      have hstep := processBatch_length hpb
      exact ⟨hrec.1.trans hstep.1, hrec.2.trans hstep.2⟩

/-- Claim C5: starting from the freshly initialized state, the waterfall
matrices always keep exactly `waterfall_height` rows after any successfully
processed batch sequence; and every non-skipped ingest evicts the oldest row
(index 0) by shifting all rows toward index 0 and appends, as the new last
row, an all-NaN row into which the in-range samples are then written —
strictly FIFO, never reordered — while a skipped batch leaves the state
unchanged. -/
theorem claim5_fifo_rows (c : WaterfallConfig) :
    (∀ (bs : List ScanBatch) (st' : WaterfallState),
        processAll c (initState c) bs = some st' →
        st'.db_data.length = c.waterfall_height ∧
        st'.freq_data.length = c.waterfall_height) ∧
    (∀ (st : WaterfallState) (b : ScanBatch) (st' : WaterfallState)
        (flag : Bool), processBatch c st b = some (st', flag) →
        (flag = true → st' = st) ∧
        (flag = false → ∀ w : ℕ, st.db_data ≠ [] →
            (∀ row ∈ st.db_data, row.length = w) →
            ∃ r, writeEntries (nanRow w) (dbEntries c b) = some r ∧
              st'.db_data = st.db_data.drop 1 ++ [r]) ∧
        (flag = false → ∀ w : ℕ, st.freq_data ≠ [] →
            (∀ row ∈ st.freq_data, row.length = w) →
            ∃ r, writeEntries (nanRow w) (freqEntries c b) = some r ∧
              st'.freq_data = st.freq_data.drop 1 ++ [r])) := by
  constructor
  · intro bs st' h
    have hlen := processAll_length c bs (initState c) st' h
    have h1 : (initState c).db_data.length = c.waterfall_height := by
      simp [initState, initMatrix]
    have h2 : (initState c).freq_data.length = c.waterfall_height := by
      simp [initState, initMatrix]
    exact ⟨hlen.1.trans h1, hlen.2.trans h2⟩
  · intro st b st' flag h
    have hc := processBatch_char h
    refine ⟨fun hf => (hc.1 hf).1, ?_, ?_⟩
    · intro hf w hne hw
      obtain ⟨_, fd, dd, th, hfd, hdd, _, hst⟩ := hc.2 hf
      rw [ingestMat_eq hne hw (dbEntries c b), Option.map_eq_some'] at hdd
      obtain ⟨r, hr, hdd2⟩ := hdd
      exact ⟨r, hr, by rw [hst, ← hdd2]⟩
    · intro hf w hne hw
      obtain ⟨_, fd, dd, th, hfd, hdd, _, hst⟩ := hc.2 hf
      rw [ingestMat_eq hne hw (freqEntries c b), Option.map_eq_some'] at hfd
      obtain ⟨r, hr, hfd2⟩ := hfd
      exact ⟨r, hr, by rw [hst, ← hfd2]⟩

/-! Concrete evaluations (rational arithmetic is opaque to kernel reduction,
so concrete runs are certified through `norm_num` step lemmas). -/

theorem inRange_run : inRangeSamples ⟨0, 2, 1, 2, 90, true⟩
    ⟨5, [⟨1, -50⟩], 0⟩ = [⟨1, -50⟩] := by
  norm_num [inRangeSamples, List.filter]

theorem sampleIdx_run : sampleIdx ⟨0, 2, 1, 2, 90, true⟩ 1 = 1 := by
  rw [sampleIdx, show ((1 : ℚ) - 0) / 1 = ((1 : ℤ) : ℚ) by norm_num,
    roundHalfEven_intCast]

theorem quantizeFreq_run : quantizeFreq ⟨0, 2, 1, 2, 90, true⟩ 1 = 1 := by
  rw [quantizeFreq, show ((1 : ℚ) / 1) = ((1 : ℤ) : ℚ) by norm_num,
    roundHalfEven_intCast]
  norm_num

theorem freqEntries_run : freqEntries ⟨0, 2, 1, 2, 90, true⟩
    ⟨5, [⟨1, -50⟩], 0⟩ = [(1, 1)] := by
  rw [freqEntries, inRange_run]
  simp [sampleIdx_run, quantizeFreq_run]

theorem dbEntries_run : dbEntries ⟨0, 2, 1, 2, 90, true⟩
    ⟨5, [⟨1, -50⟩], 0⟩ = [(1, -50)] := by
  rw [dbEntries, inRange_run]
  simp [sampleIdx_run]

theorem num_bins_run : (num_bins ⟨0, 2, 1, 2, 90, true⟩).toNat = 3 := by
  rw [num_bins, show ((2 : ℚ) - 0) / 1 + 1 = 3 by norm_num,
    pyInt_of_nonneg (by norm_num)]
  simp

theorem initState_run : initState ⟨0, 2, 1, 2, 90, true⟩ =
    { freq_data := [[none, none, none], [none, none, none]]
      db_data := [[none, none, none], [none, none, none]]
      scan_times := []
      scan_config_history := []
      previous_scan_config := none
      counter := 0 } := by
  rw [initState, initMatrix, num_bins_run]
  rfl

theorem processBatch_run1 : processBatch ⟨0, 2, 1, 2, 90, true⟩
    (initState ⟨0, 2, 1, 2, 90, true⟩) ⟨5, [⟨1, -50⟩], 0⟩ =
    some ({ freq_data := [[none, none, none], [none, some 1, none]]
            db_data := [[none, none, none], [none, some (-50), none]]
            scan_times := [5]
            scan_config_history := [(5, 0)]
            previous_scan_config := none
            counter := 1 }, false) := by
  rw [initState_run]
  simp only [processBatch, inRange_run, freqEntries_run, dbEntries_run]
  rfl

theorem processBatch_run2 : processBatch ⟨0, 2, 1, 2, 90, true⟩
    { freq_data := [[none, none, none], [none, some 1, none]]
      db_data := [[none, none, none], [none, some (-50), none]]
      scan_times := [5]
      scan_config_history := [(5, 0)]
      previous_scan_config := none
      counter := 1 } ⟨5, [⟨1, -50⟩], 0⟩ =
    some ({ freq_data := [[none, some 1, none], [none, some 1, none]]
            db_data := [[none, some (-50), none], [none, some (-50), none]]
            scan_times := [5, 5]
            scan_config_history := [(5, 0)]
            previous_scan_config := none
            counter := 2 }, false) := by
  simp only [processBatch, inRange_run, freqEntries_run, dbEntries_run]
  rfl

/-- Witness for claim C5: a concrete ingest into a height-2 matrix evicts row
0 and appends the freshly written row. -/
theorem claim5_witness :
    ∃ r, writeEntries (nanRow 3)
        (dbEntries ⟨0, 2, 1, 2, 90, true⟩ ⟨5, [⟨1, -50⟩], 0⟩) = some r ∧
      ({ freq_data := [[none, none, none], [none, some 1, none]]
         db_data := [[none, none, none], [none, some (-50), none]]
         scan_times := [5]
         scan_config_history := [(5, 0)]
         previous_scan_config := none
         counter := 1 } : WaterfallState).db_data =
        (initState ⟨0, 2, 1, 2, 90, true⟩).db_data.drop 1 ++ [r] :=
  ((claim5_fifo_rows ⟨0, 2, 1, 2, 90, true⟩).2
      (initState ⟨0, 2, 1, 2, 90, true⟩) ⟨5, [⟨1, -50⟩], 0⟩
      { freq_data := [[none, none, none], [none, some 1, none]]
        db_data := [[none, none, none], [none, some (-50), none]]
        scan_times := [5]
        scan_config_history := [(5, 0)]
        previous_scan_config := none
        counter := 1 } false processBatch_run1).2.1 rfl 3
    (by rw [initState_run]; decide) (by rw [initState_run]; decide)

theorem processAll_run : processAll ⟨0, 2, 1, 2, 90, true⟩
    (initState ⟨0, 2, 1, 2, 90, true⟩)
    [⟨5, [⟨1, -50⟩], 0⟩, ⟨5, [⟨1, -50⟩], 0⟩] =
    some { freq_data := [[none, some 1, none], [none, some 1, none]]
           db_data := [[none, some (-50), none], [none, some (-50), none]]
           scan_times := [5, 5]
           scan_config_history := [(5, 0)]
           previous_scan_config := none
           counter := 2 } := by
  rw [processAll_cons, processBatch_run1]
  simp only [Option.map_some', Option.some_bind]
  rw [processAll_cons, processBatch_run2]
  simp only [Option.map_some', Option.some_bind]
  rw [processAll_nil]

/-- Counterexample for claim C6: two successfully processed batches sharing
the same timestamp (persistence enabled throughout) leave 2 retained scan
rows but only 1 scan-config history entry — the dict keyed by timestamp
collapses the duplicate, so the history does not have one entry per retained
row. -/
theorem claim6_counterexample :
    (processAll ⟨0, 2, 1, 2, 90, true⟩ (initState ⟨0, 2, 1, 2, 90, true⟩)
        [⟨5, [⟨1, -50⟩], 0⟩, ⟨5, [⟨1, -50⟩], 0⟩]).map
      (fun s => (s.scan_config_history.length, s.scan_times.length)) =
      some (1, 2) ∧ (1 : ℕ) ≠ 2 := by
  rw [processAll_run]
  exact ⟨rfl, by decide⟩

theorem dictInsert_keys_of_not_mem (h : List (ℚ × ℕ)) (k : ℚ) (v : ℕ)
    (hk : k ∉ h.map Prod.fst) :
    (dictInsert h k v).map Prod.fst = h.map Prod.fst ++ [k] := by
  have hany : (h.any fun p => decide (p.1 = k)) = false := by
    rw [List.any_eq_false]
    intro p hp
    simp only [decide_eq_true_eq]
    intro hpk
    exact hk (hpk ▸ List.mem_map_of_mem Prod.fst hp)
  rw [dictInsert]
  simp only [hany, Bool.false_eq_true, if_false]
  rw [List.map_append]
  rfl

theorem dictPop_cons_of_not_mem (k : ℚ) (v : ℕ) (t : List (ℚ × ℕ))
    (hk : k ∉ t.map Prod.fst) : dictPop ((k, v) :: t) k = some t := by
  rw [dictPop]
  have hany : (((k, v) :: t).any fun p => decide (p.1 = k)) = true := by
    simp
  rw [if_pos hany]
  congr 1
  rw [List.filter_cons]
  have hcond : (decide ¬(k, v).1 = k) = false := by
    simp
  rw [hcond]
  simp only [Bool.false_eq_true, if_false]
  rw [List.filter_eq_self]
  intro p hp
  simp only [decide_eq_true_eq]
  intro hpk
  exact hk (hpk ▸ List.mem_map_of_mem Prod.fst hp)

/-- The scan-config history's key list tracks the retained scan-time list
exactly, provided persistence is enabled and all processed batch timestamps
are distinct from each other and from the retained ones. -/
theorem history_keys_invariant (c : WaterfallConfig) (hsave : c.savePath = true) :
    ∀ (bs : List ScanBatch) (st st' : WaterfallState),
      st.scan_config_history.map Prod.fst = st.scan_times →
      (st.scan_times ++ bs.map ScanBatch.ts).Nodup →
      processAll c st bs = some st' →
      st'.scan_config_history.map Prod.fst = st'.scan_times := by
  intro bs
  induction bs with
  | nil =>
    intro st st' hkeys _ h
    rw [processAll_nil] at h
    obtain rfl := Option.some.inj h
    exact hkeys
  | cons b bs ih =>
    intro st st' hkeys hnd h
    rw [processAll_cons] at h
    cases hpb : processBatch c st b with
    | none =>
      rw [hpb] at h
      exact absurd h (by simp)
    | some p =>
      obtain ⟨s1, fl⟩ := p
      rw [hpb] at h
      simp only [Option.map_some', Option.some_bind] at h
      have hnd' : (st.scan_times ++ (b.ts :: bs.map ScanBatch.ts)).Nodup := by
        simpa using hnd
      have hndsplit := List.nodup_append.mp hnd'
      have hbts : b.ts ∉ st.scan_times :=
        fun hc => hndsplit.2.2 hc (List.mem_cons_self _ _)
      have hchar := processBatch_char hpb
      cases fl with
      | true =>
        obtain ⟨hst, _⟩ := hchar.1 rfl
        subst hst
        refine ih s1 st' hkeys ?_ h
        refine List.Nodup.sublist ?_ hnd'
        exact List.Sublist.append_left (List.sublist_cons_self _ _) _
      | false =>
        obtain ⟨_, fd, dd, th, hfd, hdd, hth, hs1⟩ := hchar.2 rfl
        by_cases hlen : (st.scan_times ++ [b.ts]).length > c.waterfall_height
        · rw [if_pos hlen] at hth
          cases hstimes : st.scan_times with
          | nil =>
            rw [hstimes] at hkeys hth
            have hhist : st.scan_config_history = [] :=
              List.map_eq_nil_iff.mp hkeys
            rw [hhist] at hth
            simp [dictPop, hsave] at hth
          | cons t0 ts' =>
            rw [hstimes] at hkeys hth hbts hnd'
            rw [List.cons_append] at hth
            dsimp only at hth
            rw [if_pos hsave, Option.map_eq_some'] at hth
            obtain ⟨h2, hpop, hth2⟩ := hth
            cases hhist : st.scan_config_history with
            | nil =>
              rw [hhist] at hkeys
              exact absurd hkeys.symm (List.cons_ne_nil _ _)
            | cons pr ht =>
              rw [hhist] at hkeys hpop
              rw [List.map_cons] at hkeys
              have hp1 : pr.1 = t0 := (List.cons.inj hkeys).1
              have hts' : ht.map Prod.fst = ts' := (List.cons.inj hkeys).2
              have ht0cons : (t0 :: (ts' ++ b.ts :: bs.map ScanBatch.ts)).Nodup := by
                rw [← List.cons_append]
                exact hnd'
              have ht0notts' : t0 ∉ ts' := by
                intro hc
                exact (List.nodup_cons.mp ht0cons).1
                  (List.mem_append.mpr (Or.inl hc))
              have hpop2 : dictPop ((t0, pr.2) :: ht) t0 = some ht := by
                apply dictPop_cons_of_not_mem
                rw [hts']
                exact ht0notts'
              rw [show pr = (t0, pr.2) by rw [← hp1]] at hpop
              rw [hpop2] at hpop
              obtain rfl := Option.some.inj hpop
              have hbnotts' : b.ts ∉ ts' :=
                fun hc => hbts (List.mem_cons_of_mem _ hc)
              have hkeys1 : s1.scan_config_history.map Prod.fst =
                  s1.scan_times := by
                rw [hs1, ← hth2]
                simp only [hsave, if_true]
                rw [dictInsert_keys_of_not_mem _ _ _ (by rw [hts']; exact hbnotts'),
                  hts']
              refine ih s1 st' hkeys1 ?_ h
              rw [hs1, ← hth2]
              show ((ts' ++ [b.ts]) ++ bs.map ScanBatch.ts).Nodup
              rw [List.append_assoc, List.singleton_append]
              exact (List.nodup_cons.mp ht0cons).2
        · rw [if_neg hlen] at hth
          obtain rfl := Option.some.inj hth
          have hkeys1 : s1.scan_config_history.map Prod.fst = s1.scan_times := by
            rw [hs1]
            simp only [hsave, if_true]
            rw [dictInsert_keys_of_not_mem _ _ _ (by rw [hkeys]; exact hbts),
              hkeys]
          refine ih s1 st' hkeys1 ?_ h
          rw [hs1]
          show ((st.scan_times ++ [b.ts]) ++ bs.map ScanBatch.ts).Nodup
          rw [List.append_assoc, List.singleton_append]
          exact hnd'

/-- Claim C6 (amended): with persistence enabled and pairwise-distinct batch
timestamps, after processing any batch sequence the scan-config history has
exactly one entry per retained scan timestamp, in lock-step order — in
particular its size equals the number of retained scan timestamps. -/
theorem claim6_amended (c : WaterfallConfig) (bs : List ScanBatch)
    (st' : WaterfallState) (hsave : c.savePath = true)
    (hnd : (bs.map ScanBatch.ts).Nodup)
    (hrun : processAll c (initState c) bs = some st') :
    st'.scan_config_history.map Prod.fst = st'.scan_times ∧
    st'.scan_config_history.length = st'.scan_times.length := by
  have hkeys := history_keys_invariant c hsave bs (initState c) st' rfl
    (by simpa [initState] using hnd) hrun
  exact ⟨hkeys, by rw [← hkeys, List.length_map]⟩

/-- Witness for claim C6 (amended): a concrete two-batch run with distinct
timestamps keeps the history keys equal to the retained scan times. -/
theorem claim6_witness :
    ∃ st', processAll ⟨0, 2, 1, 2, 90, true⟩ (initState ⟨0, 2, 1, 2, 90, true⟩)
        [⟨5, [⟨1, -50⟩], 0⟩] = some st' ∧
      st'.scan_config_history.map Prod.fst = st'.scan_times ∧
      st'.scan_config_history.length = st'.scan_times.length := by
  refine ⟨{ freq_data := [[none, none, none], [none, some 1, none]]
            db_data := [[none, none, none], [none, some (-50), none]]
            scan_times := [5]
            scan_config_history := [(5, 0)]
            previous_scan_config := none
            counter := 1 }, ?_, ?_⟩
  · rw [processAll_cons, processBatch_run1]
    simp only [Option.map_some', Option.some_bind]
    rw [processAll_nil]
  · exact claim6_amended ⟨0, 2, 1, 2, 90, true⟩ [⟨5, [⟨1, -50⟩], 0⟩] _ rfl
      (by decide)
      (by rw [processAll_cons, processBatch_run1]
          simp only [Option.map_some', Option.some_bind]
          rw [processAll_nil])

end GamutRF
